import Mathlib

/-!
Verification of the TRAJEP LAMMPS trajectory parser (src/TRAJEP.py).

Shallow embedding conventions:
* Python floats are modelled as rationals (`ℚ`); the claims under study do not
  depend on rounding behaviour, only on comparisons, division and arithmetic.
* A numpy 2-D array is modelled as a total function `ℕ → ℕ → ℚ` together with
  the bounds it is used at; `np.empty` junk contents are an arbitrary `init`
  parameter.
* The Python dict `idToIndex` is an association list where assignment prepends
  and lookup returns the first match, so later assignments win, as in Python.
* Python exceptions (`ValueError` from `int()`/`float()`, `IndexError`,
  `KeyError`) are `Except String` / `Option` failures.
* Python `int()` on the nonnegative float `numDumps` truncates, which on
  nonnegative values is the floor; negative Python list indices (reachable
  only from a negative atom-count header, which no dump file has) are not
  modelled — all indices used by the claims are nonnegative.
-/

namespace TRAJEP

/-- One line of a dump file, abstracted to its parse behaviour:
`intLine n` is a line whose stripped text is a single integer token (the
header lines at offsets 1 and 3, and the timestep line of every chunk);
`atomLine atomId xPos` is an atom line whose whitespace-split fields start
with an integer id and a float x-coordinate (fields 2.. are never read by the
source, so they are not modelled); `tagLine` is any other line (literal tags,
bounding-box float pairs): neither `int()` of the whole line nor `int()` of
its first field succeeds on it. -/
inductive Line where
  | intLine (n : ℤ)
  | atomLine (atomId : ℤ) (xPos : ℚ)
  | tagLine
deriving DecidableEq

/-- Python `int(line[0:len(line)-1])` — the whole line, stripped of its
newline, parsed as an integer (source lines 79 and 84). -/
def pyIntLine : Line → Except String ℤ
  | .intLine n => .ok n
  | _ => .error "ValueError: invalid literal for int()"

/-- Python `int(line.split()[0])` — the first whitespace-separated field
parsed as an integer (source lines 93 and 106). A single-integer line also
succeeds here. -/
def pyIntField0 : Line → Except String ℤ
  | .intLine n => .ok n
  | .atomLine a _ => .ok a
  | .tagLine => .error "ValueError: invalid literal for int()"

/-- Python `float(line.split()[1])` — the second field parsed as a float
(source line 107); a single-token line raises IndexError, a tag line
ValueError. -/
def pyFloatField1 : Line → Except String ℚ
  | .atomLine _ x => .ok x
  | _ => .error "no parseable second field"

/-- The id field of a line, total: used only under hypotheses that make the
line an `atomLine` (or an `intLine`, matching `pyIntField0`). -/
def lineId : Line → ℤ
  | .intLine n => n
  | .atomLine a _ => a
  | .tagLine => 0

/-- The x field of a line, total: used only under hypotheses that make the
line an `atomLine`. -/
def lineX : Line → ℚ
  | .atomLine _ x => x
  | _ => 0

/-- Python `int()` of a nonnegative value, used as a loop bound: truncation
coincides with the floor there, and `range(0, n)` of a negative `n` is empty,
as is `List.range ⌊q⌋.toNat`. -/
def pyIntNat (q : ℚ) : ℕ := ⌊q⌋.toNat

/-- Source lines 88-94: collect the atom ids of the first chunk, reading
`int(lines[i+9].split()[0])` for `i in range(numAtoms)` and appending. -/
def readFirstChunkIds (lines : List Line) (numAtoms : ℕ) : Except String (List ℤ) :=
  (List.range numAtoms).foldlM
    (fun acc i => do
      let a ← pyIntField0 (lines.getD (i + 9) .tagLine)
      pure (acc ++ [a]))
    []

/-- Source line 95: `atomList = sorted(atomList)` — Python's stable ascending
sort; on integers any stable ascending sort is extensionally `sorted`. -/
def sortIds (ids : List ℤ) : List ℤ := List.insertionSort (· ≤ ·) ids

/-- Source lines 96-98: `for i in range(0, numAtoms): idToIndex[atomList[i]] = i`,
the dict modelled as an association list where assignment prepends. -/
def buildIdToIndex (sortedIds : List ℤ) (numAtoms : ℕ) : List (ℤ × ℕ) :=
  (List.range numAtoms).foldl (fun d i => (sortedIds.getD i 0, i) :: d) []

/-- Dict lookup: first binding wins (later Python assignments are nearer the
head). `none` is Python's KeyError. -/
def dictGet : List (ℤ × ℕ) → ℤ → Option ℕ
  | [], _ => none
  | (k1, v) :: d, k => if k = k1 then some v else dictGet d k

/-- The trajectory matrix under assembly, with a ghost write counter
instrumenting source line 109 (one increment per executed store) so that the
write-exactly-once guarantee can be stated. -/
structure AsmState where
  data : ℕ → ℕ → ℚ
  written : ℕ → ℕ → ℕ

/-- Source lines 104-109, the body of the recording loop for one line of
chunk `i`: parse the id and the x-coordinate, look the id up (KeyError if
absent), and store the coordinate at `[atomIndex][i]`. -/
def recordLine (idToIndex : List (ℤ × ℕ)) (i : ℕ) (s : AsmState) (ln : Line) :
    Except String AsmState := do
  let atomId ← pyIntField0 ln
  let xPos ← pyFloatField1 ln
  match dictGet idToIndex atomId with
  | none => .error "KeyError"
  | some atomIndex =>
      .ok { data := fun r t => if r = atomIndex ∧ t = i then xPos else s.data r t,
            written := fun r t => if r = atomIndex ∧ t = i then s.written r t + 1
                                  else s.written r t }

/-- The line of chunk `i` at in-chunk offset `k`: source line 104 with
`j = i*dumpLength + 9 + k`. -/
def chunkLine (lines : List Line) (dumpLength i k : ℕ) : Line :=
  lines.getD (i * dumpLength + 9 + k) .tagLine

/-- Source lines 102-109: the inner recording loop over one chunk. -/
def recordChunk (lines : List Line) (dumpLength numAtoms : ℕ)
    (idToIndex : List (ℤ × ℕ)) (s : AsmState) (i : ℕ) : Except String AsmState :=
  ((List.range numAtoms).map (chunkLine lines dumpLength i)).foldlM
    (recordLine idToIndex i) s

/-- Source lines 101-109: the recording double loop over
`i in range(0, int(numDumps))`, starting from the `np.empty` matrix `init`. -/
def assemble (lines : List Line) (dumpLength numAtoms numDumpsInt : ℕ)
    (idToIndex : List (ℤ × ℕ)) (init : ℕ → ℕ → ℚ) : Except String AsmState :=
  (List.range numDumpsInt).foldlM (recordChunk lines dumpLength numAtoms idToIndex)
    { data := init, written := fun _ _ => 0 }

/-- One file's assembled matrix and metadata (source lines 111-116); the meta
dict stores `numDumps` as the fractional value `len(lines)/dumpLength`. -/
structure PolymerResult where
  data : ℕ → ℕ → ℚ
  written : ℕ → ℕ → ℕ
  numAtoms : ℤ
  numDumps : ℚ
  dumpStep : ℤ

/-- Outcome of the per-file body of the loop at source lines 73-117:
`skipped` is a `continue` at line 78 or 83, `failed` an uncaught Python
exception, `ok` a file appended to `polymerList`/`polymerMeta`. -/
inductive FileOutcome where
  | skipped
  | failed (e : String)
  | ok (r : PolymerResult)

/-- Source lines 75-116 for one file: read `numAtoms` from line index 3,
derive `dumpLength = numAtoms + 9` and the fractional
`numDumps = len(lines)/dumpLength`, guard the two short-file skips, read
`dumpStep` from line index `dumpLength + 1`, build the id map from the first
chunk, and assemble the matrix over `int(numDumps)` chunks. -/
def processFile (init : ℕ → ℕ → ℚ) (lines : List Line) : FileOutcome :=
  if lines.length < 4 then .skipped
  else
    match pyIntLine (lines.getD 3 .tagLine) with
    | .error e => .failed e
    | .ok numAtoms =>
      let dumpLength : ℤ := numAtoms + 9
      let numDumps : ℚ := (lines.length : ℚ) / (dumpLength : ℚ)
      if (lines.length : ℤ) < dumpLength + 2 then .skipped
      else
        match pyIntLine (lines.getD (dumpLength + 1).toNat .tagLine) with
        | .error e => .failed e
        | .ok dumpStep =>
          match readFirstChunkIds lines numAtoms.toNat with
          | .error e => .failed e
          | .ok atomList =>
            match assemble lines dumpLength.toNat numAtoms.toNat (pyIntNat numDumps)
                (buildIdToIndex (sortIds atomList) numAtoms.toNat) init with
            | .error e => .failed e
            | .ok s =>
              .ok { data := s.data, written := s.written, numAtoms := numAtoms,
                    numDumps := numDumps, dumpStep := dumpStep }

/-- Source lines 71-117: the batch loop, appending each successfully processed
file's result in order; a `continue` moves to the next file, an uncaught
exception aborts the batch. -/
def processBatch (init : ℕ → ℕ → ℚ) : List (List Line) → Except String (List PolymerResult)
  | [] => .ok []
  | f :: rest =>
    match processFile init f with
    | .skipped => processBatch init rest
    | .failed e => .error e
    | .ok r => do
      let rs ← processBatch init rest
      pure (r :: rs)

/-- Whether `file.close()` (source line 117) runs for this file: the two skip
paths `continue` to the next file at lines 78 and 83 without reaching it, and
an uncaught exception propagates out of the loop before it. -/
def fileHandleClosed (init : ℕ → ℕ → ℚ) (lines : List Line) : Bool :=
  match processFile init lines with
  | .ok _ => true
  | _ => false

/-- State of the crossing scan at source lines 136-144: the found flag, the
`firstMonomerCoords` list (empty until a crossing is recorded, then `[j, t]`),
and the matrix being normalized in place. -/
@[ext]
structure ScanState where
  firstMonomerFound : Bool
  firstMonomerCoords : List ℕ
  data : ℕ → ℕ → ℚ

/-- Source lines 140-144, the scan body at monomer `j`, timestep `t`: read the
raw coordinate, record `[j, t]` if it reaches `x1` and nothing was recorded
yet, then unconditionally divide the cell by `RF`. -/
def scanCell (x1 RF : ℚ) (t j : ℕ) (s : ScanState) : ScanState :=
  let xPos := s.data j t
  let s1 := if x1 ≤ xPos ∧ s.firstMonomerFound = false then
      { s with firstMonomerFound := true, firstMonomerCoords := [j, t] }
    else s
  { s1 with data := fun j1 t1 => if j1 = j ∧ t1 = t then s1.data j1 t1 / RF
                                 else s1.data j1 t1 }

/-- Source lines 136-144: the scan double loop, outer over timesteps, inner
over monomers. -/
def scanMatrix (x1 RF : ℚ) (numAtoms numDumpsInt : ℕ) (d : ℕ → ℕ → ℚ) : ScanState :=
  (List.range numDumpsInt).foldl
    (fun s t => (List.range numAtoms).foldl (fun s2 j => scanCell x1 RF t j s2) s)
    ⟨false, [], d⟩

/-- The four derived arrays of source lines 126-133 and 150-154. -/
structure DerivedSeries where
  head : List ℚ
  tail : List ℚ
  front : List ℚ
  time : List ℚ

/-- Source lines 150-154: the series loop writes index `t` of each array once
for `t in range(int(numDumps))`, which denotes these maps. `numAtoms - 1` is
the source's `numAtoms-1` (nonnegative for any real file). -/
def deriveSeries (TIMESTEP : ℚ) (numAtoms numDumpsInt : ℕ) (dumpStep : ℤ)
    (d : ℕ → ℕ → ℚ) (firstIdx firstTime : ℕ) : DerivedSeries :=
  { head := (List.range numDumpsInt).map (fun t => d 0 t),
    tail := (List.range numDumpsInt).map (fun t => d (numAtoms - 1) t),
    front := (List.range numDumpsInt).map (fun t => d firstIdx t),
    time := (List.range numDumpsInt).map
      (fun (t : ℕ) => ((t : ℚ) - (firstTime : ℚ)) * TIMESTEP * (dumpStep : ℚ)) }

/-- Source lines 124-157 for one polymer: scan for the first crossing, read
`firstMonomerCoords[0]` and `[1]` (IndexError — modelled as `none` — when the
list is still empty), then derive the series from the now-normalized matrix. -/
def postProcess (x1 RF TIMESTEP : ℚ) (r : PolymerResult) : Option DerivedSeries :=
  let n := pyIntNat r.numDumps
  let s := scanMatrix x1 RF r.numAtoms.toNat n r.data
  match s.firstMonomerCoords[0]?, s.firstMonomerCoords[1]? with
  | some j, some t =>
      some (deriveSeries TIMESTEP r.numAtoms.toNat n r.dumpStep s.data j t)
  | _, _ => none

/-- The `(j, t)` cell order of the scan's nested loops: all of timestep `t`
before any of timestep `t+1`, monomers ascending within a timestep. -/
def scanOrder (numAtoms numDumpsInt : ℕ) : List (ℕ × ℕ) :=
  (List.range numDumpsInt).flatMap (fun t => (List.range numAtoms).map (fun j => (j, t)))

/-- Strict time-major order on `(atom, timestep)` cells. -/
def tmLt (p q : ℕ × ℕ) : Prop := p.2 < q.2 ∨ (p.2 = q.2 ∧ p.1 < q.1)

/-- A concrete 2-monomer, 2-timestep raw matrix with crossings (for threshold
5) at cells (1, 0) and (0, 1); its time-major first crossing is (1, 0). -/
def exD : ℕ → ℕ → ℚ :=
  fun j t => if j = 1 ∧ t = 0 then 7 else if j = 0 ∧ t = 1 then 9 else 0

/-- A concrete polymer whose raw matrix never reaches threshold 5. -/
def exRnone : PolymerResult :=
  { data := fun _ _ => 0, written := fun _ _ => 1, numAtoms := 2, numDumps := 2,
    dumpStep := 100 }

/-- The (identifier, x-coordinate) records of chunk `i`, in textual order:
the content of the chunk that assembly consumes. -/
def chunkRecs (lines : List Line) (dumpLength numAtoms i : ℕ) : List (ℤ × ℚ) :=
  (List.range numAtoms).map
    (fun k => (lineId (chunkLine lines dumpLength i k),
               lineX (chunkLine lines dumpLength i k)))

/-- A concrete single-chunk file: a 9-line header followed by two atom lines
with (unsorted) identifiers 5 and 3. -/
def exLines : List Line :=
  [.tagLine, .tagLine, .tagLine, .tagLine, .tagLine, .tagLine, .tagLine, .tagLine,
   .tagLine, .atomLine 5 1, .atomLine 3 2]

/-- A concrete polymer around the matrix `exD`: its crossing is at atom 1,
timestep 0. -/
def exRcross : PolymerResult :=
  { data := exD, written := fun _ _ => 1, numAtoms := 2, numDumps := 2, dumpStep := 100 }

/-- A concrete 25-line file: one atom per chunk (id 7), so `dumpLength = 10`
and `numDumps = 2.5` — two complete chunks plus a truncated 5-line
remainder. Line 3 holds the atom count, line 11 the second chunk's timestep
(the dump step), lines 9 and 19 the two atom lines. -/
def exF : List Line :=
  [.tagLine, .intLine 0, .tagLine, .intLine 1, .tagLine,
   .tagLine, .tagLine, .tagLine, .tagLine, .atomLine 7 3,
   .tagLine, .intLine 200, .tagLine, .intLine 1, .tagLine,
   .tagLine, .tagLine, .tagLine, .tagLine, .atomLine 7 4,
   .tagLine, .intLine 400, .tagLine, .intLine 1, .tagLine]

/-- Whether cell `p` holds a raw coordinate at or above the threshold. -/
def crossedB (x1 : ℚ) (d : ℕ → ℕ → ℚ) (p : ℕ × ℕ) : Bool := decide (x1 ≤ d p.1 p.2)

/-- The `firstMonomerCoords` value determined by the prefix `P` of visited
cells: `[j, t]` for the first crossing cell of `P`, else the empty list. -/
def coordsOf (x1 : ℚ) (d : ℕ → ℕ → ℚ) (P : List (ℕ × ℕ)) : List ℕ :=
  match P.find? (crossedB x1 d) with
  | some p => [p.1, p.2]
  | none => []

/-- The scan state after visiting exactly the cells of `P` (each once),
starting from the raw matrix `d`. -/
def stateAfter (x1 RF : ℚ) (d : ℕ → ℕ → ℚ) (P : List (ℕ × ℕ)) : ScanState :=
  { firstMonomerFound := P.any (crossedB x1 d),
    firstMonomerCoords := coordsOf x1 d P,
    data := fun j t => if (j, t) ∈ P then d j t / RF else d j t }

lemma scanCell_found (x1 RF : ℚ) (t j : ℕ) (s : ScanState) :
    (scanCell x1 RF t j s).firstMonomerFound
      = (s.firstMonomerFound || decide (x1 ≤ s.data j t)) := by
  simp only [scanCell]
  by_cases h : x1 ≤ s.data j t ∧ s.firstMonomerFound = false
  · rw [if_pos h]
    simp [h.1, h.2]
  · rw [if_neg h]
    rcases Decidable.not_and_iff_or_not.mp h with h1 | h2
    · cases hb : s.firstMonomerFound <;> simp [h1, hb]
    · simp at h2
      simp [h2]

lemma scanCell_coords (x1 RF : ℚ) (t j : ℕ) (s : ScanState) :
    (scanCell x1 RF t j s).firstMonomerCoords
      = (if x1 ≤ s.data j t ∧ s.firstMonomerFound = false then [j, t]
         else s.firstMonomerCoords) := by
  simp only [scanCell]
  by_cases h : x1 ≤ s.data j t ∧ s.firstMonomerFound = false
  · rw [if_pos h, if_pos h]
  · rw [if_neg h, if_neg h]

lemma scanCell_data (x1 RF : ℚ) (t j : ℕ) (s : ScanState) :
    (scanCell x1 RF t j s).data
      = fun j1 t1 => if j1 = j ∧ t1 = t then s.data j1 t1 / RF else s.data j1 t1 := by
  simp only [scanCell]
  by_cases h : x1 ≤ s.data j t ∧ s.firstMonomerFound = false
  · rw [if_pos h]
  · rw [if_neg h]

lemma stateAfter_nil (x1 RF : ℚ) (d : ℕ → ℕ → ℚ) :
    stateAfter x1 RF d [] = ⟨false, [], d⟩ := by
  simp [stateAfter, coordsOf]

lemma scanState_eq {s1 s2 : ScanState}
    (h1 : s1.firstMonomerFound = s2.firstMonomerFound)
    (h2 : s1.firstMonomerCoords = s2.firstMonomerCoords)
    (h3 : s1.data = s2.data) : s1 = s2 := by
  cases s1
  cases s2
  simp_all

lemma scanCell_stateAfter (x1 RF : ℚ) (d : ℕ → ℕ → ℚ) (P : List (ℕ × ℕ)) (p : ℕ × ℕ)
    (hp : p ∉ P) :
    scanCell x1 RF p.2 p.1 (stateAfter x1 RF d P) = stateAfter x1 RF d (P ++ [p]) := by
  have hnotmem : ¬ ((p.1, p.2) ∈ P) := by rw [Prod.mk.eta]; exact hp
  have hdp : (stateAfter x1 RF d P).data p.1 p.2 = d p.1 p.2 := by
    simp only [stateAfter]
    rw [if_neg hnotmem]
  refine scanState_eq ?_ ?_ ?_
  · rw [scanCell_found, hdp]
    simp [stateAfter, crossedB, List.any_append]
  · rw [scanCell_coords, hdp]
    by_cases hfound : P.any (crossedB x1 d) = true
    · have hsome : (P.find? (crossedB x1 d)).isSome = true := by
        rw [List.find?_isSome]
        exact List.any_eq_true.mp hfound
      obtain ⟨q, hq⟩ := Option.isSome_iff_exists.mp hsome
      rw [if_neg (by simp [stateAfter, hfound])]
      simp only [stateAfter, coordsOf, List.find?_append, hq, Option.or]
    · have hnone : P.find? (crossedB x1 d) = none := by
        rw [← Option.not_isSome_iff_eq_none, List.find?_isSome]
        intro hex
        exact hfound (List.any_eq_true.mpr hex)
      by_cases hc : x1 ≤ d p.1 p.2
      · rw [if_pos ⟨hc, by simp [stateAfter, hfound]⟩]
        have hfp : List.find? (crossedB x1 d) [p] = some p := by
          simp [List.find?, crossedB, hc]
        simp only [stateAfter, coordsOf, List.find?_append, hnone, hfp, Option.none_or]
      · rw [if_neg (by rintro ⟨h1, -⟩; exact hc h1)]
        have hfp : List.find? (crossedB x1 d) [p] = none := by
          simp [List.find?, crossedB, hc]
        simp only [stateAfter, coordsOf, List.find?_append, hnone, hfp, Option.none_or]
  · rw [scanCell_data]
    funext j1 t1
    show (if j1 = p.1 ∧ t1 = p.2 then (stateAfter x1 RF d P).data j1 t1 / RF
          else (stateAfter x1 RF d P).data j1 t1) = (stateAfter x1 RF d (P ++ [p])).data j1 t1
    simp only [stateAfter]
    by_cases he : j1 = p.1 ∧ t1 = p.2
    · obtain ⟨rfl, rfl⟩ := he
      rw [if_pos ⟨rfl, rfl⟩, if_neg hnotmem]
      rw [if_pos (by simp)]
    · rw [if_neg he]
      have hmem : ((j1, t1) ∈ P ++ [p]) ↔ ((j1, t1) ∈ P) := by
        simp only [List.mem_append, List.mem_singleton]
        constructor
        · rintro (h | h)
          · exact h
          · exact absurd (Prod.mk.injEq .. ▸ h) (by simpa using he)
        · exact Or.inl
      by_cases hm : (j1, t1) ∈ P
      · rw [if_pos hm, if_pos (hmem.mpr hm)]
      · rw [if_neg hm, if_neg (fun h => hm (hmem.mp h))]

lemma foldl_scanCell (x1 RF : ℚ) (d : ℕ → ℕ → ℚ) :
    ∀ (L P : List (ℕ × ℕ)), (P ++ L).Nodup →
      L.foldl (fun s q => scanCell x1 RF q.2 q.1 s) (stateAfter x1 RF d P)
        = stateAfter x1 RF d (P ++ L)
  | [], P, _ => by simp
  | p :: L, P, h => by
    have hdisj : P.Disjoint (p :: L) := List.disjoint_of_nodup_append h
    have hp : p ∉ P := fun hmem => hdisj hmem (List.mem_cons_self p L)
    rw [List.foldl_cons, scanCell_stateAfter x1 RF d P p hp]
    have h2 : ((P ++ [p]) ++ L).Nodup := by
      rw [List.append_assoc]
      simpa using h
    rw [foldl_scanCell x1 RF d L (P ++ [p]) h2]
    rw [List.append_assoc, List.singleton_append]

lemma foldl_flatMap {α β γ : Type} (g : γ → List α) (f : β → α → β) :
    ∀ (l : List γ) (b : β),
      (l.flatMap g).foldl f b = l.foldl (fun x c => (g c).foldl f x) b
  | [], _ => rfl
  | c :: l, b => by
    rw [List.flatMap_cons, List.foldl_append, List.foldl_cons, foldl_flatMap g f l]

lemma scanMatrix_eq_foldl (x1 RF : ℚ) (a n : ℕ) (d : ℕ → ℕ → ℚ) :
    scanMatrix x1 RF a n d
      = (scanOrder a n).foldl (fun s q => scanCell x1 RF q.2 q.1 s) ⟨false, [], d⟩ := by
  unfold scanMatrix scanOrder
  rw [foldl_flatMap]
  congr 1
  funext s t
  rw [List.foldl_map]

lemma mem_scanOrder {a n : ℕ} {p : ℕ × ℕ} :
    p ∈ scanOrder a n ↔ p.1 < a ∧ p.2 < n := by
  simp only [scanOrder, List.mem_flatMap, List.mem_map, List.mem_range]
  constructor
  · rintro ⟨t, ht, j, hj, rfl⟩
    exact ⟨hj, ht⟩
  · rintro ⟨h1, h2⟩
    exact ⟨p.2, h2, p.1, h1, rfl⟩

lemma scanOrder_pairwise (a n : ℕ) : (scanOrder a n).Pairwise tmLt := by
  rw [scanOrder, List.pairwise_flatMap]
  constructor
  · intro t _
    rw [List.pairwise_map]
    exact (List.pairwise_lt_range a).imp (fun h => Or.inr ⟨rfl, h⟩)
  · refine (List.pairwise_lt_range n).imp ?_
    intro t1 t2 h x hx y hy
    simp only [List.mem_map, List.mem_range] at hx hy
    obtain ⟨j1, -, rfl⟩ := hx
    obtain ⟨j2, -, rfl⟩ := hy
    exact Or.inl h

lemma tmLt_ne {p q : ℕ × ℕ} (h : tmLt p q) : p ≠ q := by
  rintro rfl
  rcases h with h | ⟨-, h⟩ <;> exact lt_irrefl _ h

lemma scanOrder_nodup (a n : ℕ) : (scanOrder a n).Nodup :=
  (scanOrder_pairwise a n).imp (fun h => tmLt_ne h)

lemma scanMatrix_char (x1 RF : ℚ) (a n : ℕ) (d : ℕ → ℕ → ℚ) :
    scanMatrix x1 RF a n d = stateAfter x1 RF d (scanOrder a n) := by
  rw [scanMatrix_eq_foldl, ← stateAfter_nil x1 RF d]
  have := foldl_scanCell x1 RF d (scanOrder a n) [] (by simpa using scanOrder_nodup a n)
  simpa using this

lemma find?_first {α : Type} {R : α → α → Prop} {l : List α} {q : α → Bool} {x : α}
    (hp : l.Pairwise R) (hf : l.find? q = some x) :
    ∀ y ∈ l, q y = true → x = y ∨ R x y := by
  rcases List.find?_eq_some.mp hf with ⟨hqx, as, bs, rfl, hne⟩
  intro y hy hqy
  rcases List.mem_append.mp hy with h | h
  · have : (!q y) = true := hne y h
    simp [hqy] at this
  · rcases List.mem_cons.mp h with rfl | h
    · exact Or.inl rfl
    · right
      have hxbs := (List.pairwise_append.mp hp).2.1
      exact (List.pairwise_cons.mp hxbs).1 y h

/-- C1: on a matrix with at least one cell at or above the threshold `x1`, the
scan of source lines 136-144 returns `firstMonomerCoords = [atomIndex,
timestepIndex]` of the time-major first crossing cell `(j0, t0)` — the
hypotheses state that `(j0, t0)` is a raw crossing cell preceded by no other
in time-major order (outer loop timestep ascending, inner loop atom index
ascending), so among same-timestep crossings the lowest atom index wins and a
recorded crossing is never replaced by a later one. -/
theorem scan_returns_first_crossing (x1 RF : ℚ) (a n : ℕ) (d : ℕ → ℕ → ℚ)
    (j0 t0 : ℕ) (hj : j0 < a) (ht : t0 < n) (hx : x1 ≤ d j0 t0)
    (hmin : ∀ j t, j < a → t < n → x1 ≤ d j t → t0 < t ∨ (t0 = t ∧ j0 ≤ j)) :
    (scanMatrix x1 RF a n d).firstMonomerCoords = [j0, t0] := by
  rw [scanMatrix_char]
  have hmem : ((j0, t0) : ℕ × ℕ) ∈ scanOrder a n := mem_scanOrder.mpr ⟨hj, ht⟩
  have hsome : ((scanOrder a n).find? (crossedB x1 d)).isSome = true := by
    rw [List.find?_isSome]
    exact ⟨(j0, t0), hmem, by simpa [crossedB] using hx⟩
  obtain ⟨q, hq⟩ := Option.isSome_iff_exists.mp hsome
  have hqc : crossedB x1 d q = true := List.find?_some hq
  have hqmem : q ∈ scanOrder a n := List.mem_of_find?_eq_some hq
  obtain ⟨hq1, hq2⟩ := mem_scanOrder.mp hqmem
  have hqx : x1 ≤ d q.1 q.2 := by simpa [crossedB] using hqc
  have h1 := find?_first (scanOrder_pairwise a n) hq (j0, t0) hmem
    (by simpa [crossedB] using hx)
  have h2 := hmin q.1 q.2 hq1 hq2 hqx
  have hqe : q = (j0, t0) := by
    rcases h1 with he | htm
    · exact he
    · exfalso
      simp only [tmLt] at htm
      rcases htm with hlt | ⟨heq, hlt⟩ <;> rcases h2 with h2 | ⟨h2e, h2l⟩ <;> omega
  simp only [stateAfter, coordsOf, hq, hqe]

/-- Witness for C1 at a concrete matrix: two crossings, at (1, 0) and (0, 1);
the scan reports atom index 1 at timestep 0. -/
theorem scan_returns_first_crossing_witness :
    (scanMatrix 5 2 2 2 exD).firstMonomerCoords = [1, 0] := by
  refine scan_returns_first_crossing 5 2 2 2 exD 1 0 (by norm_num) (by norm_num)
    (by norm_num [exD]) ?_
  intro j t hj ht hx
  interval_cases j <;> interval_cases t <;> simp_all [exD] <;> norm_num at hx

/-- C2: after the scan of source lines 136-144, every in-bounds cell holds its
original raw value divided by `RF` exactly once (cells outside the scanned
bounds are untouched), the division having been applied unconditionally to
every cell — including cells visited after the crossing was found — and the
crossing decision (`firstMonomerFound`) is a function of the raw,
unnormalized values: it is set iff some raw in-bounds cell reaches `x1`. -/
theorem scan_normalizes_every_cell_exactly_once (x1 RF : ℚ) (a n : ℕ) (d : ℕ → ℕ → ℚ) :
    (∀ j t, j < a → t < n → (scanMatrix x1 RF a n d).data j t = d j t / RF) ∧
    (∀ j t, a ≤ j ∨ n ≤ t → (scanMatrix x1 RF a n d).data j t = d j t) ∧
    ((scanMatrix x1 RF a n d).firstMonomerFound = true ↔
      ∃ j t, j < a ∧ t < n ∧ x1 ≤ d j t) := by
  rw [scanMatrix_char]
  refine ⟨?_, ?_, ?_⟩
  · intro j t hj ht
    simp only [stateAfter]
    rw [if_pos (mem_scanOrder.mpr ⟨hj, ht⟩)]
  · intro j t h
    simp only [stateAfter]
    rw [if_neg (fun hm => by rcases mem_scanOrder.mp hm with ⟨h1, h2⟩ ; omega)]
  · simp only [stateAfter, List.any_eq_true]
    constructor
    · rintro ⟨p, hp, hc⟩
      rcases mem_scanOrder.mp hp with ⟨h1, h2⟩
      exact ⟨p.1, p.2, h1, h2, by simpa [crossedB] using hc⟩
    · rintro ⟨j, t, h1, h2, hx⟩
      exact ⟨(j, t), mem_scanOrder.mpr ⟨h1, h2⟩, by simpa [crossedB] using hx⟩

/-- Witness for C2: the cell (0, 1) of the concrete matrix — visited after
the crossing at (1, 0) was already found — still gets divided by `RF = 2`,
and an out-of-bounds cell is untouched. -/
theorem scan_normalizes_every_cell_exactly_once_witness :
    (scanMatrix 5 2 2 2 exD).data 0 1 = exD 0 1 / 2 ∧
      (scanMatrix 5 2 2 2 exD).data 0 2 = exD 0 2 :=
  ⟨(scan_normalizes_every_cell_exactly_once 5 2 2 2 exD).1 0 1 (by norm_num) (by norm_num),
   (scan_normalizes_every_cell_exactly_once 5 2 2 2 exD).2.1 0 2 (Or.inr (by norm_num))⟩

/-- C7: when no raw cell of the matrix reaches the threshold, the scan leaves
`firstMonomerCoords` as the explicitly empty list — not a sentinel such as
`[0, 0]` — and the post-processing stage produces no derived series for that
file (reading element 0 of the empty coordinate list is an IndexError,
modelled as `none`), so no series with a default time origin is emitted. -/
theorem no_crossing_is_explicit_absence (x1 RF TIMESTEP : ℚ) (r : PolymerResult)
    (h : ∀ j t, j < r.numAtoms.toNat → t < pyIntNat r.numDumps → r.data j t < x1) :
    (scanMatrix x1 RF r.numAtoms.toNat (pyIntNat r.numDumps) r.data).firstMonomerCoords = []
      ∧ postProcess x1 RF TIMESTEP r = none := by
  have hcoords : (scanMatrix x1 RF r.numAtoms.toNat (pyIntNat r.numDumps)
      r.data).firstMonomerCoords = [] := by
    rw [scanMatrix_char]
    have hnone : (scanOrder r.numAtoms.toNat (pyIntNat r.numDumps)).find?
        (crossedB x1 r.data) = none := by
      rw [List.find?_eq_none]
      intro p hp
      rcases mem_scanOrder.mp hp with ⟨h1, h2⟩
      simp only [crossedB, decide_eq_true_eq]
      exact not_le.mpr (h p.1 p.2 h1 h2)
    simp only [stateAfter, coordsOf, hnone]
  refine ⟨hcoords, ?_⟩
  simp only [postProcess, hcoords]
  rfl

/-- Witness for C7: a polymer whose matrix is identically 0 against threshold
5 yields no derived series. -/
theorem no_crossing_is_explicit_absence_witness :
    postProcess 5 2 (1/20000) exRnone = none :=
  (no_crossing_is_explicit_absence 5 2 (1/20000) exRnone
    (fun j t hj ht => by norm_num [exRnone])).2

lemma foldl_cons_rev {α β : Type} (f : α → β) :
    ∀ (l : List α) (acc : List β),
      l.foldl (fun d i => f i :: d) acc = (l.map f).reverse ++ acc
  | [], _ => rfl
  | a :: l, acc => by
    rw [List.foldl_cons, foldl_cons_rev f l (f a :: acc)]
    simp

lemma buildIdToIndex_eq (s : List ℤ) (n : ℕ) :
    buildIdToIndex s n = ((List.range n).map (fun i => (s.getD i 0, i))).reverse := by
  unfold buildIdToIndex
  rw [foldl_cons_rev]
  simp

lemma mem_buildIdToIndex {s : List ℤ} {n : ℕ} {kv : ℤ × ℕ} :
    kv ∈ buildIdToIndex s n ↔ ∃ i < n, kv = (s.getD i 0, i) := by
  rw [buildIdToIndex_eq, List.mem_reverse, List.mem_map]
  constructor
  · rintro ⟨i, hi, rfl⟩
    exact ⟨i, List.mem_range.mp hi, rfl⟩
  · rintro ⟨i, hi, rfl⟩
    exact ⟨i, List.mem_range.mpr hi, rfl⟩

lemma dictGet_eq_some_mem :
    ∀ {d : List (ℤ × ℕ)} {k : ℤ} {v : ℕ}, dictGet d k = some v → (k, v) ∈ d
  | [], k, v => by simp [dictGet]
  | (k1, v1) :: rest, k, v => by
    simp only [dictGet]
    by_cases h : k = k1
    · rw [if_pos h]
      rintro ⟨rfl⟩
      simp [h]
    · rw [if_neg h]
      intro hrec
      exact List.mem_cons_of_mem _ (dictGet_eq_some_mem hrec)

lemma dictGet_ne_none_of_mem :
    ∀ {d : List (ℤ × ℕ)} {k : ℤ} {v : ℕ}, (k, v) ∈ d → (dictGet d k).isSome = true
  | [], k, v => by simp
  | (k1, v1) :: rest, k, v => by
    intro hm
    simp only [dictGet]
    by_cases h : k = k1
    · rw [if_pos h]
      rfl
    · rw [if_neg h]
      rcases List.mem_cons.mp hm with he | ht
      · exact absurd (congrArg Prod.fst he) h
      · exact dictGet_ne_none_of_mem ht

lemma dictGet_none_iff {d : List (ℤ × ℕ)} {k : ℤ} :
    dictGet d k = none ↔ ∀ v, (k, v) ∉ d := by
  constructor
  · intro hn v hm
    rw [← Option.not_isSome_iff_eq_none] at hn
    exact hn (dictGet_ne_none_of_mem hm)
  · intro h
    cases hd : dictGet d k with
    | none => rfl
    | some v => exact absurd (dictGet_eq_some_mem hd) (h v)

lemma dictGet_of_mem_nodupkeys :
    ∀ {d : List (ℤ × ℕ)} {k : ℤ} {v : ℕ},
      (d.map Prod.fst).Nodup → (k, v) ∈ d → dictGet d k = some v
  | [], k, v => by simp
  | (k1, v1) :: rest, k, v => by
    intro hnd hm
    simp only [List.map_cons, List.nodup_cons] at hnd
    simp only [dictGet]
    by_cases h : k = k1
    · rw [if_pos h]
      rcases List.mem_cons.mp hm with he | ht
      · rw [(Prod.mk.injEq .. ▸ he : k = k1 ∧ v = v1).2]
      · exfalso
        subst h
        exact hnd.1 (List.mem_map.mpr ⟨(k, v), ht, rfl⟩)
    · rw [if_neg h]
      rcases List.mem_cons.mp hm with he | ht
      · exact absurd (congrArg Prod.fst he) h
      · exact dictGet_of_mem_nodupkeys hnd.2 ht

lemma buildIdToIndex_keys_nodup (s : List ℤ) (hs : s.Nodup) :
    ((buildIdToIndex s s.length).map Prod.fst).Nodup := by
  rw [buildIdToIndex_eq, List.map_reverse, List.map_map, List.nodup_reverse]
  refine List.Nodup.map_on ?_ (List.nodup_range s.length)
  intro i hi j hj he
  rw [List.mem_range] at hi hj
  simp only [Function.comp] at he
  rw [List.getD_eq_getElem s 0 hi, List.getD_eq_getElem s 0 hj] at he
  have he2 : s.get ⟨i, hi⟩ = s.get ⟨j, hj⟩ := by simpa [List.get_eq_getElem] using he
  exact congrArg Fin.val (List.nodup_iff_injective_get.mp hs he2)

lemma dictGet_buildIdToIndex_some {s : List ℤ} {n : ℕ} {a : ℤ} {i : ℕ}
    (h : dictGet (buildIdToIndex s n) a = some i) : i < n ∧ s.getD i 0 = a := by
  rcases mem_buildIdToIndex.mp (dictGet_eq_some_mem h) with ⟨j, hj, he⟩
  have h1 : a = s.getD j 0 ∧ i = j := Prod.mk.injEq .. ▸ he
  rw [h1.2]
  exact ⟨hj, h1.1.symm⟩

lemma dictGet_buildIdToIndex_getD {s : List ℤ} (hs : s.Nodup) {i : ℕ} (hi : i < s.length) :
    dictGet (buildIdToIndex s s.length) (s.getD i 0) = some i :=
  dictGet_of_mem_nodupkeys (buildIdToIndex_keys_nodup s hs)
    (mem_buildIdToIndex.mpr ⟨i, hi, rfl⟩)

/-- C3: built from a first chunk holding `numAtoms` distinct identifiers, the
id-to-index mapping of source lines 88-98 is a bijection from those
identifiers onto `{0, ..., numAtoms-1}`, order-preserving: every identifier
looks up to an index below `numAtoms`, every such index is hit by some
identifier, and identifier order agrees with index order — so ascending
identifiers get ascending indices, the smallest index 0 and the largest
`numAtoms-1`. -/
theorem idToIndex_bijective_monotone (ids : List ℤ) (numAtoms : ℕ)
    (hlen : ids.length = numAtoms) (hnd : ids.Nodup) :
    (∀ a ∈ ids,
      ∃ i, dictGet (buildIdToIndex (sortIds ids) numAtoms) a = some i ∧ i < numAtoms) ∧
    (∀ i, i < numAtoms →
      ∃ a ∈ ids, dictGet (buildIdToIndex (sortIds ids) numAtoms) a = some i) ∧
    (∀ a1 a2 i1 i2, dictGet (buildIdToIndex (sortIds ids) numAtoms) a1 = some i1 →
      dictGet (buildIdToIndex (sortIds ids) numAtoms) a2 = some i2 →
      (a1 < a2 ↔ i1 < i2)) := by
  have hperm : (sortIds ids).Perm ids := List.perm_insertionSort _ _
  have hslen : (sortIds ids).length = numAtoms := hperm.length_eq.trans hlen
  have hsnd : (sortIds ids).Nodup := hperm.nodup_iff.mpr hnd
  have hsorted : (sortIds ids).Sorted (· ≤ ·) := List.sorted_insertionSort _ _
  have hslt : (sortIds ids).Sorted (· < ·) := hsorted.lt_of_le hsnd
  rw [← hslen]
  refine ⟨?_, ?_, ?_⟩
  · intro a ha
    rcases List.mem_iff_getElem.mp (hperm.mem_iff.mpr ha) with ⟨i, hi, hgi⟩
    have hdg := dictGet_buildIdToIndex_getD hsnd hi
    rw [List.getD_eq_getElem _ _ hi, hgi] at hdg
    exact ⟨i, hdg, hi⟩
  · intro i hi
    refine ⟨(sortIds ids).getD i 0, ?_, dictGet_buildIdToIndex_getD hsnd hi⟩
    rw [List.getD_eq_getElem _ _ hi]
    exact hperm.mem_iff.mp (List.getElem_mem hi)
  · intro a1 a2 i1 i2 h1 h2
    obtain ⟨hi1, hg1⟩ := dictGet_buildIdToIndex_some h1
    obtain ⟨hi2, hg2⟩ := dictGet_buildIdToIndex_some h2
    rw [← hg1, ← hg2, List.getD_eq_getElem _ _ hi1, List.getD_eq_getElem _ _ hi2]
    have hmono := hslt.get_strictMono
    have := hmono.lt_iff_lt (a := (⟨i1, hi1⟩ : Fin (sortIds ids).length))
      (b := (⟨i2, hi2⟩ : Fin (sortIds ids).length))
    simpa [List.get_eq_getElem, Fin.mk_lt_mk] using this

/-- Witness for C3 at the unsorted identifier list [30, 10, 20]: identifier
10 (the smallest) gets index 0, and identifier order matches index order for
the pair (10, 30) with indices (0, 2). -/
theorem idToIndex_bijective_monotone_witness :
    dictGet (buildIdToIndex (sortIds [30, 10, 20]) 3) 10 = some 0 ∧
      ((10:ℤ) < 30 ↔ (0:ℕ) < 2) :=
  ⟨by decide,
   (idToIndex_bijective_monotone [30, 10, 20] 3 (by decide) (by decide)).2.2 10 30 0 2
     (by decide) (by decide)⟩

lemma recordLine_atom (idx : List (ℤ × ℕ)) (i : ℕ) (s : AsmState) (a : ℤ) (x : ℚ) (r : ℕ)
    (hd : dictGet idx a = some r) :
    recordLine idx i s (.atomLine a x)
      = .ok { data := fun r1 t1 => if r1 = r ∧ t1 = i then x else s.data r1 t1,
              written := fun r1 t1 => if r1 = r ∧ t1 = i then s.written r1 t1 + 1
                                      else s.written r1 t1 } := by
  have h0 : recordLine idx i s (.atomLine a x)
      = (match dictGet idx a with
         | none => (Except.error "KeyError" : Except String AsmState)
         | some atomIndex =>
             Except.ok { data := fun r1 t1 => if r1 = atomIndex ∧ t1 = i then x
                                              else s.data r1 t1,
                         written := fun r1 t1 => if r1 = atomIndex ∧ t1 = i then
                                                   s.written r1 t1 + 1
                                                 else s.written r1 t1 }) := rfl
  rw [h0, hd]

lemma recordLine_atom_keyerror (idx : List (ℤ × ℕ)) (i : ℕ) (s : AsmState) (a : ℤ) (x : ℚ)
    (hd : dictGet idx a = none) :
    recordLine idx i s (.atomLine a x) = .error "KeyError" := by
  have h0 : recordLine idx i s (.atomLine a x)
      = (match dictGet idx a with
         | none => (Except.error "KeyError" : Except String AsmState)
         | some atomIndex =>
             Except.ok { data := fun r1 t1 => if r1 = atomIndex ∧ t1 = i then x
                                              else s.data r1 t1,
                         written := fun r1 t1 => if r1 = atomIndex ∧ t1 = i then
                                                   s.written r1 t1 + 1
                                                 else s.written r1 t1 }) := rfl
  rw [h0, hd]

lemma recordLine_ok_shape {idx : List (ℤ × ℕ)} {i : ℕ} {s s2 : AsmState} {ln : Line}
    (h : recordLine idx i s ln = .ok s2) :
    ∃ a x, ln = Line.atomLine a x ∧ (dictGet idx (lineId ln)).isSome = true := by
  cases ln with
  | intLine n => exact Except.noConfusion h
  | tagLine => exact Except.noConfusion h
  | atomLine a x =>
    cases hd : dictGet idx a with
    | none =>
      rw [recordLine_atom_keyerror idx i s a x hd] at h
      exact Except.noConfusion h
    | some r => exact ⟨a, x, rfl, by rw [show lineId (.atomLine a x) = a from rfl, hd]; rfl⟩

lemma countP_eq_one_of_unique {α : Type} {p : α → Bool} {a : α} :
    ∀ {l : List α}, l.Nodup → a ∈ l → p a = true → (∀ b ∈ l, p b = true → b = a) →
      l.countP p = 1
  | [], _, hm, _, _ => by simp at hm
  | b :: l, hnd, hm, hp, hu => by
    rw [List.countP_cons]
    rcases List.mem_cons.mp hm with rfl | hm2
    · have hz : l.countP p = 0 := List.countP_eq_zero.mpr (fun c hc hpc =>
        (List.nodup_cons.mp hnd).1 ((hu c (List.mem_cons_of_mem _ hc) hpc) ▸ hc))
      rw [hz, if_pos hp]
    · have hb : p b = false := by
        cases hpb : p b with
        | false => rfl
        | true =>
          exfalso
          have hba : b = a := hu b (List.mem_cons_self _ _) hpb
          exact (List.nodup_cons.mp hnd).1 (hba ▸ hm2)
      rw [if_neg (by simp [hb]),
        countP_eq_one_of_unique (List.nodup_cons.mp hnd).2 hm2 hp
          (fun c hc hpc => hu c (List.mem_cons_of_mem _ hc) hpc)]

lemma foldlM_recordLine_char (idx : List (ℤ × ℕ)) (i : ℕ)
    (hinj : ∀ a b r, dictGet idx a = some r → dictGet idx b = some r → a = b) :
    ∀ (L : List Line) (s : AsmState),
      (∀ ln ∈ L, ∃ a x, ln = Line.atomLine a x) →
      (∀ ln ∈ L, (dictGet idx (lineId ln)).isSome = true) →
      (L.map lineId).Nodup →
      ∃ s2, L.foldlM (recordLine idx i) s = .ok s2 ∧
        (∀ r t, t ≠ i → s2.written r t = s.written r t ∧ s2.data r t = s.data r t) ∧
        (∀ r, s2.written r i
            = s.written r i + L.countP (fun ln => dictGet idx (lineId ln) == some r)) ∧
        (∀ r, (∀ ln ∈ L, dictGet idx (lineId ln) ≠ some r) → s2.data r i = s.data r i) ∧
        (∀ ln ∈ L, ∀ r, dictGet idx (lineId ln) = some r → s2.data r i = lineX ln)
  | [], s, _, _, _ =>
    ⟨s, rfl, fun r t _ => ⟨rfl, rfl⟩, by simp, fun r _ => rfl, by simp⟩
  | ln0 :: L, s, h1, h2, h3 => by
    obtain ⟨a, x, rfl⟩ := h1 _ (List.mem_cons_self ln0 L)
    obtain ⟨r0, hr0⟩ := Option.isSome_iff_exists.mp (h2 _ (List.mem_cons_self _ L))
    rw [show lineId (.atomLine a x) = a from rfl] at hr0
    have hstep := recordLine_atom idx i s a x r0 hr0
    have h1L : ∀ ln ∈ L, ∃ a2 x2, ln = Line.atomLine a2 x2 :=
      fun ln h => h1 ln (List.mem_cons_of_mem _ h)
    have h2L : ∀ ln ∈ L, (dictGet idx (lineId ln)).isSome = true :=
      fun ln h => h2 ln (List.mem_cons_of_mem _ h)
    have h3m : (List.map lineId (Line.atomLine a x :: L)).Nodup := h3
    rw [List.map_cons] at h3m
    have h3c := List.nodup_cons.mp h3m
    obtain ⟨s2, hfold, ha, hb, hc, hd2⟩ := foldlM_recordLine_char idx i hinj L
      { data := fun r1 t1 => if r1 = r0 ∧ t1 = i then x else s.data r1 t1,
        written := fun r1 t1 => if r1 = r0 ∧ t1 = i then s.written r1 t1 + 1
                                else s.written r1 t1 } h1L h2L h3c.2
    refine ⟨s2, ?_, ?_, ?_, ?_, ?_⟩
    · rw [List.foldlM_cons, hstep]
      exact hfold
    · intro r t ht
      obtain ⟨hw, hdd⟩ := ha r t ht
      rw [hw, hdd]
      simp [ht]
    · intro r
      rw [hb r, List.countP_cons]
      rw [show lineId (.atomLine a x) = a from rfl, hr0]
      by_cases hrr : r = r0
      · subst hrr
        simp only [beq_self_eq_true, if_true, and_true]
        omega
      · have hne : ((some r0 == some r) : Bool) = false := by
          rw [beq_eq_false_iff_ne]
          intro he
          exact hrr (Option.some.injEq .. ▸ he).symm
        rw [hne]
        simp only [Bool.false_eq_true, if_false]
        simp [hrr]
    · intro r hnone
      have hr0ne : ¬ (r = r0) := by
        intro he
        exact hnone _ (List.mem_cons_self _ _)
          (by rw [show lineId (.atomLine a x) = a from rfl, hr0, he])
      rw [hc r (fun ln hln => hnone ln (List.mem_cons_of_mem _ hln))]
      simp [hr0ne]
    · intro ln hln r hdr
      rcases List.mem_cons.mp hln with rfl | hln2
      · rw [show lineId (.atomLine a x) = a from rfl] at hdr
        have hrr : r = r0 := by
          rw [hr0] at hdr
          exact (Option.some.injEq .. ▸ hdr).symm
        subst hrr
        have hnone : ∀ ln2 ∈ L, dictGet idx (lineId ln2) ≠ some r := by
          intro ln2 hln2 hd2r
          have hla : lineId ln2 = a := hinj _ _ _ hd2r hr0
          exact h3c.1 (hla ▸ List.mem_map.mpr ⟨ln2, hln2, rfl⟩)
        rw [hc r hnone]
        simp [lineX]
      · exact hd2 ln hln2 r hdr

lemma foldlM_recordChunk_char (lines : List Line) (dL numAtoms : ℕ) (idx : List (ℤ × ℕ))
    (hinj : ∀ a b r, dictGet idx a = some r → dictGet idx b = some r → a = b) :
    ∀ (I : List ℕ) (s : AsmState), I.Nodup →
      (∀ i ∈ I, ∀ k, k < numAtoms → ∃ a x, chunkLine lines dL i k = Line.atomLine a x) →
      (∀ i ∈ I, ∀ k, k < numAtoms →
        (dictGet idx (lineId (chunkLine lines dL i k))).isSome = true) →
      (∀ i ∈ I, (((List.range numAtoms).map (chunkLine lines dL i)).map lineId).Nodup) →
      ∃ s2, I.foldlM (recordChunk lines dL numAtoms idx) s = .ok s2 ∧
        (∀ r t, t ∉ I → s2.written r t = s.written r t ∧ s2.data r t = s.data r t) ∧
        (∀ r, ∀ i ∈ I, s2.written r i = s.written r i +
          ((List.range numAtoms).map (chunkLine lines dL i)).countP
            (fun ln => dictGet idx (lineId ln) == some r)) ∧
        (∀ r, ∀ i ∈ I,
          (∀ k, k < numAtoms → dictGet idx (lineId (chunkLine lines dL i k)) ≠ some r) →
          s2.data r i = s.data r i) ∧
        (∀ i ∈ I, ∀ k, k < numAtoms → ∀ r,
          dictGet idx (lineId (chunkLine lines dL i k)) = some r →
          s2.data r i = lineX (chunkLine lines dL i k))
  | [], s, _, _, _, _ =>
    ⟨s, rfl, fun r t _ => ⟨rfl, rfl⟩, by simp, by simp, by simp⟩
  | i0 :: I, s, hI, hA, hS, hN => by
    have hmem : ∀ ln ∈ (List.range numAtoms).map (chunkLine lines dL i0),
        ∃ a x, ln = Line.atomLine a x := by
      intro ln hln
      rcases List.mem_map.mp hln with ⟨k, hk, rfl⟩
      exact hA i0 (List.mem_cons_self _ _) k (List.mem_range.mp hk)
    have hsome : ∀ ln ∈ (List.range numAtoms).map (chunkLine lines dL i0),
        (dictGet idx (lineId ln)).isSome = true := by
      intro ln hln
      rcases List.mem_map.mp hln with ⟨k, hk, rfl⟩
      exact hS i0 (List.mem_cons_self _ _) k (List.mem_range.mp hk)
    obtain ⟨s1, hfold1, ha1, hb1, hc1, hd1⟩ := foldlM_recordLine_char idx i0 hinj
      ((List.range numAtoms).map (chunkLine lines dL i0)) s hmem hsome
      (hN i0 (List.mem_cons_self _ _))
    have hI2 := List.nodup_cons.mp hI
    obtain ⟨s2, hfold2, ha2, hb2, hc2, hd2⟩ := foldlM_recordChunk_char lines dL numAtoms idx
      hinj I s1 hI2.2
      (fun i h => hA i (List.mem_cons_of_mem _ h))
      (fun i h => hS i (List.mem_cons_of_mem _ h))
      (fun i h => hN i (List.mem_cons_of_mem _ h))
    refine ⟨s2, ?_, ?_, ?_, ?_, ?_⟩
    · rw [List.foldlM_cons]
      have hrc : recordChunk lines dL numAtoms idx s i0
          = ((List.range numAtoms).map (chunkLine lines dL i0)).foldlM (recordLine idx i0) s :=
        rfl
      rw [hrc, hfold1]
      exact hfold2
    · intro r t ht
      have ht0 : t ≠ i0 := fun he => ht (he ▸ List.mem_cons_self _ _)
      have htI : t ∉ I := fun hm => ht (List.mem_cons_of_mem _ hm)
      obtain ⟨hw2, hd2e⟩ := ha2 r t htI
      obtain ⟨hw1, hd1e⟩ := ha1 r t ht0
      exact ⟨hw2.trans hw1, hd2e.trans hd1e⟩
    · intro r i hi
      rcases List.mem_cons.mp hi with rfl | hi2
      · rw [(ha2 r _ hI2.1).1, hb1 r]
      · rw [hb2 r i hi2, (ha1 r i (fun he => hI2.1 (he ▸ hi2))).1]
    · intro r i hi hk
      rcases List.mem_cons.mp hi with rfl | hi2
      · rw [(ha2 r _ hI2.1).2]
        refine hc1 r ?_
        intro ln hln
        rcases List.mem_map.mp hln with ⟨k, hkm, rfl⟩
        exact hk k (List.mem_range.mp hkm)
      · rw [hc2 r i hi2 hk, (ha1 r i (fun he => hI2.1 (he ▸ hi2))).2]
    · intro i hi k hkn r hdr
      rcases List.mem_cons.mp hi with rfl | hi2
      · rw [(ha2 r _ hI2.1).2]
        exact hd1 _ (List.mem_map.mpr ⟨k, List.mem_range.mpr hkn, rfl⟩) r hdr
      · exact hd2 i hi2 k hkn r hdr

lemma buildIdToIndex_lookup_inj (s : List ℤ) (n : ℕ) :
    ∀ a b r, dictGet (buildIdToIndex s n) a = some r →
      dictGet (buildIdToIndex s n) b = some r → a = b := by
  intro a b r h1 h2
  obtain ⟨-, hg1⟩ := dictGet_buildIdToIndex_some h1
  obtain ⟨-, hg2⟩ := dictGet_buildIdToIndex_some h2
  rw [← hg1, ← hg2]

lemma sortIds_perm (ids : List ℤ) : (sortIds ids).Perm ids :=
  List.perm_insertionSort _ _

lemma buildIdToIndex_lookup_isSome (ids : List ℤ) (numAtoms : ℕ)
    (hlen : ids.length = numAtoms) {a : ℤ} (ha : a ∈ ids) :
    (dictGet (buildIdToIndex (sortIds ids) numAtoms) a).isSome = true := by
  have hslen : (sortIds ids).length = numAtoms := (sortIds_perm ids).length_eq.trans hlen
  rcases List.mem_iff_getElem.mp ((sortIds_perm ids).mem_iff.mpr ha) with ⟨i, hi, hgi⟩
  have hm : (a, i) ∈ buildIdToIndex (sortIds ids) numAtoms := by
    refine mem_buildIdToIndex.mpr ⟨i, hslen ▸ hi, ?_⟩
    rw [List.getD_eq_getElem _ _ hi, hgi]
  exact dictGet_ne_none_of_mem hm

lemma buildIdToIndex_lookup_none (ids : List ℤ) (numAtoms : ℕ)
    (hlen : ids.length = numAtoms) {a : ℤ} (ha : a ∉ ids) :
    dictGet (buildIdToIndex (sortIds ids) numAtoms) a = none := by
  have hslen : (sortIds ids).length = numAtoms := (sortIds_perm ids).length_eq.trans hlen
  rw [dictGet_none_iff]
  intro v hv
  rcases mem_buildIdToIndex.mp hv with ⟨i, hi, he⟩
  have h1 : a = (sortIds ids).getD i 0 := (Prod.mk.injEq .. ▸ he).1
  have hi2 : i < (sortIds ids).length := hslen ▸ hi
  rw [List.getD_eq_getElem _ _ hi2] at h1
  exact ha ((sortIds_perm ids).mem_iff.mp (h1 ▸ List.getElem_mem hi2))

lemma countP_lookup_ids (ids : List ℤ) (numAtoms : ℕ) (hlen : ids.length = numAtoms)
    (hnd : ids.Nodup) (r : ℕ) :
    (ids.countP (fun a => dictGet (buildIdToIndex (sortIds ids) numAtoms) a == some r))
      = if r < numAtoms then 1 else 0 := by
  have hslen : (sortIds ids).length = numAtoms := (sortIds_perm ids).length_eq.trans hlen
  have hsnd : (sortIds ids).Nodup := (sortIds_perm ids).nodup_iff.mpr hnd
  by_cases hr : r < numAtoms
  · rw [if_pos hr]
    have hrlen : r < (sortIds ids).length := hslen ▸ hr
    have hlook : dictGet (buildIdToIndex (sortIds ids) numAtoms)
        ((sortIds ids).getD r 0) = some r := by
      have h2 := dictGet_buildIdToIndex_getD hsnd hrlen
      rwa [hslen] at h2
    refine countP_eq_one_of_unique (a := (sortIds ids).getD r 0) hnd ?_ ?_ ?_
    · rw [List.getD_eq_getElem _ _ hrlen]
      exact (sortIds_perm ids).mem_iff.mp (List.getElem_mem hrlen)
    · rw [hlook]
      exact beq_self_eq_true _
    · intro b hb hpb
      exact buildIdToIndex_lookup_inj (sortIds ids) numAtoms b _ r (eq_of_beq hpb) hlook
  · rw [if_neg hr, List.countP_eq_zero]
    intro a ha hpa
    obtain ⟨h2, -⟩ := dictGet_buildIdToIndex_some (eq_of_beq hpa)
    omega

lemma assemble_spec (lines : List Line) (dL numAtoms n : ℕ) (ids : List ℤ)
    (init : ℕ → ℕ → ℚ)
    (hlen : ids.length = numAtoms) (hnd : ids.Nodup)
    (hatom : ∀ i, i < n → ∀ k, k < numAtoms →
      ∃ a x, chunkLine lines dL i k = Line.atomLine a x)
    (hperm : ∀ i, i < n →
      ((List.range numAtoms).map (fun k => lineId (chunkLine lines dL i k))).Perm ids) :
    ∃ s2, assemble lines dL numAtoms n (buildIdToIndex (sortIds ids) numAtoms) init
        = .ok s2 ∧
      (∀ r t, r < numAtoms → t < n → s2.written r t = 1) ∧
      (∀ r t, numAtoms ≤ r ∨ n ≤ t → s2.written r t = 0 ∧ s2.data r t = init r t) ∧
      (∀ i, i < n → ∀ k, k < numAtoms → ∀ r,
        dictGet (buildIdToIndex (sortIds ids) numAtoms) (lineId (chunkLine lines dL i k))
          = some r →
        s2.data r i = lineX (chunkLine lines dL i k)) := by
  have hinj := buildIdToIndex_lookup_inj (sortIds ids) numAtoms
  have hmm : ∀ i : ℕ, ((List.range numAtoms).map (chunkLine lines dL i)).map lineId
      = (List.range numAtoms).map (fun k => lineId (chunkLine lines dL i k)) := by
    intro i
    rw [List.map_map]
    rfl
  obtain ⟨s2, hfold, ha, hb, hc, hd⟩ := foldlM_recordChunk_char lines dL numAtoms
    (buildIdToIndex (sortIds ids) numAtoms) hinj (List.range n)
    { data := init, written := fun _ _ => 0 } (List.nodup_range n)
    (fun i hi => hatom i (List.mem_range.mp hi))
    (fun i hi k hk => by
      have hidmem : lineId (chunkLine lines dL i k) ∈ ids := by
        refine (hperm i (List.mem_range.mp hi)).mem_iff.mp ?_
        exact List.mem_map.mpr ⟨k, List.mem_range.mpr hk, rfl⟩
      exact buildIdToIndex_lookup_isSome ids numAtoms hlen hidmem)
    (fun i hi => by
      rw [hmm i]
      exact ((hperm i (List.mem_range.mp hi)).nodup_iff).mpr hnd)
  have hcount : ∀ t, t < n → ∀ r,
      ((List.range numAtoms).map (chunkLine lines dL t)).countP
        (fun ln => dictGet (buildIdToIndex (sortIds ids) numAtoms) (lineId ln) == some r)
      = if r < numAtoms then 1 else 0 := by
    intro t ht r
    have h1 : ((List.range numAtoms).map (chunkLine lines dL t)).countP
        (fun ln => dictGet (buildIdToIndex (sortIds ids) numAtoms) (lineId ln) == some r)
        = (((List.range numAtoms).map (chunkLine lines dL t)).map lineId).countP
            (fun a => dictGet (buildIdToIndex (sortIds ids) numAtoms) a == some r) := by
      simp only [List.countP_map]
      rfl
    rw [h1, hmm t, List.Perm.countP_eq _ (hperm t ht)]
    exact countP_lookup_ids ids numAtoms hlen hnd r
  refine ⟨s2, hfold, ?_, ?_, ?_⟩
  · intro r t hr ht
    rw [hb r t (List.mem_range.mpr ht), hcount t ht r, if_pos hr]
  · intro r t hrt
    rcases hrt with hr | ht2
    · by_cases ht : t < n
      · constructor
        · rw [hb r t (List.mem_range.mpr ht), hcount t ht r, if_neg (by omega)]
        · refine hc r t (List.mem_range.mpr ht) ?_
          intro k hk hsome2
          obtain ⟨h2, -⟩ := dictGet_buildIdToIndex_some hsome2
          omega
      · exact ha r t (by simpa [List.mem_range] using ht)
    · exact ha r t (by simp [List.mem_range]; omega)
  · intro i hi k hk r hdr
    exact hd i (List.mem_range.mpr hi) k hk r hdr

lemma chunkRecs_map_fst (lines : List Line) (dL numAtoms i : ℕ) :
    (chunkRecs lines dL numAtoms i).map Prod.fst
      = (List.range numAtoms).map (fun k => lineId (chunkLine lines dL i k)) := by
  unfold chunkRecs
  rw [List.map_map]
  rfl

lemma range_map_nodup_inj {β : Type} {f : ℕ → β} {n : ℕ}
    (hnd : ((List.range n).map f).Nodup) {i j : ℕ} (hi : i < n) (hj : j < n)
    (he : f i = f j) : i = j := by
  have hinj := List.nodup_iff_injective_get.mp hnd
  have h1 : ((List.range n).map f).get ⟨i, by simpa using hi⟩
      = ((List.range n).map f).get ⟨j, by simpa using hj⟩ := by
    simp [List.get_eq_getElem, List.getElem_map, List.getElem_range, he]
  simpa using congrArg Fin.val (hinj h1)

lemma buildIdToIndex_lookup_row (ids : List ℤ) (numAtoms : ℕ)
    (hlen : ids.length = numAtoms) (hnd : ids.Nodup) {r : ℕ} (hr : r < numAtoms) :
    (sortIds ids).getD r 0 ∈ ids ∧
      dictGet (buildIdToIndex (sortIds ids) numAtoms) ((sortIds ids).getD r 0) = some r := by
  have hslen : (sortIds ids).length = numAtoms := (sortIds_perm ids).length_eq.trans hlen
  have hsnd : (sortIds ids).Nodup := (sortIds_perm ids).nodup_iff.mpr hnd
  have hrlen : r < (sortIds ids).length := hslen ▸ hr
  constructor
  · rw [List.getD_eq_getElem _ _ hrlen]
    exact (sortIds_perm ids).mem_iff.mp (List.getElem_mem hrlen)
  · have h2 := dictGet_buildIdToIndex_getD hsnd hrlen
    rwa [hslen] at h2

/-- C4: when each of the processed chunks holds exactly one atom line per
identifier of the (duplicate-free) first chunk — its id list is a permutation
of `ids` — assembly of source lines 101-109 succeeds and writes every cell of
the `[numAtoms][n]` matrix exactly once: the instrumented write count is 1 on
every in-range cell and 0 outside, where the `np.empty` junk `init` also
survives untouched. Moreover the in-range matrix is independent of the
textual ordering of atom lines within each chunk: any file whose per-chunk
(id, x) records are a permutation of the original ones assembles to the same
in-range matrix. -/
theorem assembly_each_cell_once_order_independent (lines : List Line)
    (dL numAtoms n : ℕ) (ids : List ℤ) (init : ℕ → ℕ → ℚ)
    (hlen : ids.length = numAtoms) (hnd : ids.Nodup)
    (hatom : ∀ i, i < n → ∀ k, k < numAtoms →
      ∃ a x, chunkLine lines dL i k = Line.atomLine a x)
    (hperm : ∀ i, i < n → ((chunkRecs lines dL numAtoms i).map Prod.fst).Perm ids) :
    ∃ s2, assemble lines dL numAtoms n (buildIdToIndex (sortIds ids) numAtoms) init
        = .ok s2 ∧
      (∀ r t, r < numAtoms → t < n → s2.written r t = 1) ∧
      (∀ r t, numAtoms ≤ r ∨ n ≤ t → s2.written r t = 0 ∧ s2.data r t = init r t) ∧
      (∀ lines2 init2,
        (∀ i, i < n → ∀ k, k < numAtoms →
          ∃ a x, chunkLine lines2 dL i k = Line.atomLine a x) →
        (∀ i, i < n →
          (chunkRecs lines2 dL numAtoms i).Perm (chunkRecs lines dL numAtoms i)) →
        ∃ s3, assemble lines2 dL numAtoms n (buildIdToIndex (sortIds ids) numAtoms) init2
            = .ok s3 ∧
          ∀ r t, r < numAtoms → t < n → s3.data r t = s2.data r t) := by
  have hperm1 : ∀ i, i < n →
      ((List.range numAtoms).map (fun k => lineId (chunkLine lines dL i k))).Perm ids := by
    intro i hi
    rw [← chunkRecs_map_fst]
    exact hperm i hi
  obtain ⟨s2, hok, h1, h0, hchar⟩ :=
    assemble_spec lines dL numAtoms n ids init hlen hnd hatom hperm1
  refine ⟨s2, hok, h1, h0, ?_⟩
  intro lines2 init2 hatom2 hrecs
  have hperm2 : ∀ i, i < n →
      ((List.range numAtoms).map (fun k => lineId (chunkLine lines2 dL i k))).Perm ids := by
    intro i hi
    rw [← chunkRecs_map_fst]
    exact ((hrecs i hi).map Prod.fst).trans (hperm i hi)
  obtain ⟨s3, hok3, h13, h03, hchar3⟩ :=
    assemble_spec lines2 dL numAtoms n ids init2 hlen hnd hatom2 hperm2
  refine ⟨s3, hok3, ?_⟩
  intro r t hr ht
  obtain ⟨hamem, halook⟩ := buildIdToIndex_lookup_row ids numAtoms hlen hnd hr
  have hnd1 : ((List.range numAtoms).map
      (fun k => lineId (chunkLine lines dL t k))).Nodup :=
    (hperm1 t ht).nodup_iff.mpr hnd
  obtain ⟨k1, hk1m, hk1⟩ := List.mem_map.mp ((hperm1 t ht).mem_iff.mpr hamem)
  obtain ⟨k2, hk2m, hk2⟩ := List.mem_map.mp ((hperm2 t ht).mem_iff.mpr hamem)
  rw [List.mem_range] at hk1m hk2m
  have hv1 : s2.data r t = lineX (chunkLine lines dL t k1) :=
    hchar t ht k1 hk1m r (by rw [hk1, halook])
  have hv2 : s3.data r t = lineX (chunkLine lines2 dL t k2) :=
    hchar3 t ht k2 hk2m r (by rw [hk2, halook])
  have hrec2 : (lineId (chunkLine lines2 dL t k2), lineX (chunkLine lines2 dL t k2))
      ∈ chunkRecs lines2 dL numAtoms t :=
    List.mem_map.mpr ⟨k2, List.mem_range.mpr hk2m, rfl⟩
  have hrec1 := (hrecs t ht).mem_iff.mp hrec2
  obtain ⟨k3, hk3m, hk3⟩ := List.mem_map.mp hrec1
  rw [List.mem_range] at hk3m
  have hid3 : lineId (chunkLine lines dL t k3) = lineId (chunkLine lines2 dL t k2) :=
    congrArg Prod.fst hk3
  have hx3 : lineX (chunkLine lines dL t k3) = lineX (chunkLine lines2 dL t k2) :=
    congrArg Prod.snd hk3
  have hkk : k3 = k1 := range_map_nodup_inj hnd1 hk3m hk1m (by rw [hid3, hk2, hk1])
  rw [hv1, hv2, ← hx3, hkk]

/-- Witness for C4: assembling the concrete file writes both cells of its
2-by-1 matrix exactly once, and the out-of-range cell (0, 1) not at all. -/
theorem assembly_each_cell_once_order_independent_witness :
    (assemble exLines 11 2 1 (buildIdToIndex (sortIds [5, 3]) 2) (fun _ _ => 0)).map
        (fun s => (s.written 0 0, s.written 1 0, s.written 0 1))
      = .ok (1, 1, 0) := by
  obtain ⟨s2, hok, h1, h0, -⟩ :=
    assembly_each_cell_once_order_independent exLines 11 2 1 [5, 3] (fun _ _ => 0)
      (by decide) (by decide)
      (by
        intro i hi k hk
        interval_cases i
        interval_cases k
        · exact ⟨5, 1, rfl⟩
        · exact ⟨3, 2, rfl⟩)
      (by
        intro i hi
        interval_cases i
        decide)
  rw [hok]
  have e1 := h1 0 0 (by norm_num) (by norm_num)
  have e2 := h1 1 0 (by norm_num) (by norm_num)
  have e3 := (h0 0 1 (Or.inr (by norm_num))).1
  simp [Except.map, e1, e2, e3]

lemma foldlM_recordLine_ok_shape (idx : List (ℤ × ℕ)) (i : ℕ) :
    ∀ {L : List Line} {s s2 : AsmState},
      L.foldlM (recordLine idx i) s = .ok s2 →
      ∀ ln ∈ L, ∃ a x, ln = Line.atomLine a x ∧ (dictGet idx a).isSome = true
  | [], _, _, _ => by simp
  | ln0 :: L, s, s2, h => by
    rw [List.foldlM_cons] at h
    cases hr : recordLine idx i s ln0 with
    | error e =>
      rw [hr] at h
      exact Except.noConfusion h
    | ok s1 =>
      rw [hr] at h
      intro ln hln
      rcases List.mem_cons.mp hln with rfl | h2
      · obtain ⟨a, x, he, hs⟩ := recordLine_ok_shape hr
        refine ⟨a, x, he, ?_⟩
        rw [he] at hs
        exact hs
      · exact foldlM_recordLine_ok_shape idx i
          (show L.foldlM (recordLine idx i) s1 = .ok s2 from h) ln h2

lemma foldlM_recordChunk_ok_shape (lines : List Line) (dL numAtoms : ℕ)
    (idx : List (ℤ × ℕ)) :
    ∀ {I : List ℕ} {s s2 : AsmState},
      I.foldlM (recordChunk lines dL numAtoms idx) s = .ok s2 →
      ∀ i ∈ I, ∀ k, k < numAtoms →
        ∃ a x, chunkLine lines dL i k = Line.atomLine a x ∧
          (dictGet idx a).isSome = true
  | [], _, _, _ => by simp
  | i0 :: I, s, s2, h => by
    rw [List.foldlM_cons] at h
    cases hr : recordChunk lines dL numAtoms idx s i0 with
    | error e =>
      rw [hr] at h
      exact Except.noConfusion h
    | ok s1 =>
      rw [hr] at h
      intro i hi k hk
      rcases List.mem_cons.mp hi with rfl | h2
      · have hrl : ((List.range numAtoms).map (chunkLine lines dL i)).foldlM
            (recordLine idx i) s = .ok s1 := hr
        exact foldlM_recordLine_ok_shape idx i hrl _
          (List.mem_map.mpr ⟨k, List.mem_range.mpr hk, rfl⟩)
      · exact foldlM_recordChunk_ok_shape lines dL numAtoms idx
          (show I.foldlM (recordChunk lines dL numAtoms idx) s1 = .ok s2 from h) i h2 k hk

/-- C10: assembly is total only when every processed atom line's identifier
occurs in the first chunk: a processed line whose identifier is not among the
first chunk's identifiers (in particular, no matter whether the first chunk's
ids were duplicated, since the dict's keys are exactly the first-chunk ids)
makes the `idToIndex[atomId]` lookup of source line 108 raise a KeyError —
the file's assembly returns an error instead of storing the coordinate. -/
theorem missing_identifier_aborts_assembly (lines : List Line) (dL numAtoms n : ℕ)
    (ids : List ℤ) (init : ℕ → ℕ → ℚ) (i k : ℕ) (a : ℤ) (x : ℚ)
    (hlen : ids.length = numAtoms)
    (hi : i < n) (hk : k < numAtoms)
    (hline : chunkLine lines dL i k = Line.atomLine a x)
    (hnotin : a ∉ ids) :
    ∃ e, assemble lines dL numAtoms n (buildIdToIndex (sortIds ids) numAtoms) init
        = .error e := by
  cases hres : assemble lines dL numAtoms n (buildIdToIndex (sortIds ids) numAtoms) init with
  | error e => exact ⟨e, rfl⟩
  | ok s2 =>
    exfalso
    have hresf : (List.range n).foldlM
        (recordChunk lines dL numAtoms (buildIdToIndex (sortIds ids) numAtoms))
        { data := init, written := fun _ _ => 0 } = .ok s2 := hres
    obtain ⟨a2, x2, he, hs⟩ := foldlM_recordChunk_ok_shape lines dL numAtoms
      (buildIdToIndex (sortIds ids) numAtoms) hresf i (List.mem_range.mpr hi) k hk
    rw [hline] at he
    have ha2 : a = a2 := (Line.atomLine.injEq .. ▸ he).1
    rw [← ha2, buildIdToIndex_lookup_none ids numAtoms hlen hnotin] at hs
    simp at hs

/-- Witness for C10: a file whose single atom line carries identifier 5,
against a first-chunk identifier list [3], assembles to a KeyError. -/
theorem missing_identifier_aborts_assembly_witness :
    (assemble [Line.tagLine, .tagLine, .tagLine, .tagLine, .tagLine, .tagLine, .tagLine,
        .tagLine, .tagLine, .atomLine 5 1] 10 1 1 (buildIdToIndex (sortIds [3]) 1)
        (fun _ _ => 0)).toOption
      = none := by
  obtain ⟨e, he⟩ := missing_identifier_aborts_assembly
    [Line.tagLine, .tagLine, .tagLine, .tagLine, .tagLine, .tagLine, .tagLine,
      .tagLine, .tagLine, .atomLine 5 1] 10 1 1 [3] (fun _ _ => 0) 0 0 5 1
    (by decide) (by decide) (by decide) rfl (by decide)
  rw [he]
  rfl

lemma getD_map_range {f : ℕ → ℚ} {n u : ℕ} (hu : u < n) :
    ((List.range n).map f).getD u 0 = f u := by
  rw [List.getD_eq_getElem _ _ (by simpa using hu), List.getElem_map, List.getElem_range]

lemma length_map_range {α : Type} (f : ℕ → α) (n : ℕ) :
    ((List.range n).map f).length = n := by
  rw [List.length_map, List.length_range]

/-- C5: for a processed file whose scan recorded the crossing
`[crossingAtomIndex, crossingTimestepIndex] = [j0, t0]`, post-processing
yields the four derived arrays, each of length `int(numDumps)` over the same
time axis, with `head[u] = matrix[0][u]`, `tail[u] = matrix[numAtoms-1][u]`,
`front[u] = matrix[j0][u]` read from the (normalized-in-place) matrix, and
`time[u] = (u - t0) * TIMESTEP * dumpStep`. -/
theorem derived_series_shape (x1 RF TIMESTEP : ℚ) (r : PolymerResult) (j0 t0 : ℕ)
    (h : (scanMatrix x1 RF r.numAtoms.toNat (pyIntNat r.numDumps)
        r.data).firstMonomerCoords = [j0, t0]) :
    ∃ ds, postProcess x1 RF TIMESTEP r = some ds ∧
      ds.head.length = pyIntNat r.numDumps ∧
      ds.tail.length = pyIntNat r.numDumps ∧
      ds.front.length = pyIntNat r.numDumps ∧
      ds.time.length = pyIntNat r.numDumps ∧
      (∀ u, u < pyIntNat r.numDumps →
        ds.head.getD u 0 = (scanMatrix x1 RF r.numAtoms.toNat (pyIntNat r.numDumps)
            r.data).data 0 u ∧
        ds.tail.getD u 0 = (scanMatrix x1 RF r.numAtoms.toNat (pyIntNat r.numDumps)
            r.data).data (r.numAtoms.toNat - 1) u ∧
        ds.front.getD u 0 = (scanMatrix x1 RF r.numAtoms.toNat (pyIntNat r.numDumps)
            r.data).data j0 u ∧
        ds.time.getD u 0 = ((u : ℚ) - (t0 : ℚ)) * TIMESTEP * (r.dumpStep : ℚ)) := by
  refine ⟨deriveSeries TIMESTEP r.numAtoms.toNat (pyIntNat r.numDumps) r.dumpStep
      (scanMatrix x1 RF r.numAtoms.toNat (pyIntNat r.numDumps) r.data).data j0 t0,
    ?_, ?_, ?_, ?_, ?_, ?_⟩
  · simp only [postProcess]
    rw [h]
    rfl
  · exact length_map_range _ _
  · exact length_map_range _ _
  · exact length_map_range _ _
  · exact length_map_range
      (fun (t : ℕ) => ((t : ℚ) - (t0 : ℚ)) * TIMESTEP * (r.dumpStep : ℚ)) _
  · intro u hu
    refine ⟨?_, ?_, ?_, ?_⟩
    · exact getD_map_range hu
    · exact getD_map_range hu
    · exact getD_map_range hu
    · exact getD_map_range
        (f := fun (t : ℕ) => ((t : ℚ) - (t0 : ℚ)) * TIMESTEP * (r.dumpStep : ℚ)) hu

/-- Witness for C5: post-processing the concrete crossing polymer yields the
four series of length `int(numDumps) = 2`. -/
theorem derived_series_shape_witness :
    (postProcess 5 2 (1/20000) exRcross).map (fun ds => (ds.head.length, ds.time.length))
      = some (2, 2) := by
  obtain ⟨ds, hsome, hl1, hl2, hl3, hl4, -⟩ :=
    derived_series_shape 5 2 (1/20000) exRcross 1 0 (by decide)
  rw [hsome]
  show some (ds.head.length, ds.time.length) = some (2, 2)
  rw [hl1, hl4]
  rfl

/-- C8: a file with fewer than 4 lines, or — with `numAtoms` read from line
index 3 and `dumpLength = numAtoms + 9` — fewer than `dumpLength + 2` lines,
is skipped gracefully: the per-file step takes a `continue` (no exception),
nothing is appended to the batch results for it, and the batch continues with
the remaining files unchanged. -/
theorem short_file_skipped_batch_continues (init : ℕ → ℕ → ℚ) (lines : List Line)
    (rest : List (List Line))
    (h : lines.length < 4 ∨
      ∃ nA : ℤ, lines.getD 3 Line.tagLine = Line.intLine nA ∧
        (lines.length : ℤ) < nA + 9 + 2) :
    processFile init lines = .skipped ∧
      processBatch init (lines :: rest) = processBatch init rest := by
  have hskip : processFile init lines = .skipped := by
    unfold processFile
    by_cases h4 : lines.length < 4
    · rw [if_pos h4]
    · rcases h with h4x | ⟨nA, h3, hlen⟩
      · exact absurd h4x h4
      · rw [if_neg h4, h3]
        simp only [pyIntLine]
        rw [if_pos hlen]
  refine ⟨hskip, ?_⟩
  have hb : processBatch init (lines :: rest)
      = (match processFile init lines with
         | .skipped => processBatch init rest
         | .failed e => .error e
         | .ok r => do
             let rs ← processBatch init rest
             pure (r :: rs)) := rfl
  rw [hb, hskip]

/-- Witness for C8: the empty file is skipped and leaves the batch results
unchanged. -/
theorem short_file_skipped_batch_continues_witness :
    processFile (fun _ _ => 0) [] = .skipped ∧
      processBatch (fun _ _ => 0) [[]] = processBatch (fun _ _ => 0) [] :=
  short_file_skipped_batch_continues (fun _ _ => 0) [] [] (Or.inl (by decide))

/-- C9 is violated by the code: on the skip path for a file with fewer than 4
lines, the `continue` at source line 78 jumps to the next file without ever
reaching `file.close()` at line 117, so the opened handle is not closed
before the next file is processed (the analogous leak occurs on the second
skip path at line 83). This theorem evaluates the model at the failing
input: a 3-line file is skipped, and the close call never runs for it. -/
theorem short_file_handle_not_closed :
    processFile (fun _ _ => 0) [Line.tagLine, .tagLine, .tagLine] = .skipped ∧
      fileHandleClosed (fun _ _ => 0) [Line.tagLine, .tagLine, .tagLine] = false :=
  ⟨rfl, rfl⟩

lemma pyIntNat_div (len : ℕ) (m : ℤ) (hm : 0 ≤ m) :
    pyIntNat ((len : ℚ) / (m : ℚ)) = len / m.toNat := by
  have h1 : ((m : ℤ) : ℚ) = ((m.toNat : ℕ) : ℚ) := by
    have h2 := Int.toNat_of_nonneg hm
    exact_mod_cast h2.symm
  unfold pyIntNat
  rw [h1, Rat.floor_natCast_div_natCast, ← Int.natCast_div, Int.toNat_natCast]

/-- C6: for a file with at least 4 lines whose line index 3 parses as the
integer `nA ≥ 0` and that passes the `dumpLength + 2` guard, the decoder
derives `dumpLength = nA + 9`, reads `dumpStep` from line index
`dumpLength + 1`, stores the fractional `numDumps = totalLines/dumpLength`,
and — under the assembly preconditions — processes exactly
`⌊totalLines/dumpLength⌋` chunks: every cell of those chunks is written once
and no chunk beyond the floor is touched, with no error even when
`totalLines` is not an exact multiple of `dumpLength` (the fractional
remainder of lines is silently ignored). -/
theorem decoder_reads_header_and_floors_chunks (init : ℕ → ℕ → ℚ) (lines : List Line)
    (nA dS : ℤ) (ids : List ℤ)
    (hnn : 0 ≤ nA)
    (h3 : lines.getD 3 Line.tagLine = Line.intLine nA)
    (hlen2 : nA + 9 + 2 ≤ (lines.length : ℤ))
    (hds : lines.getD (nA + 9 + 1).toNat Line.tagLine = Line.intLine dS)
    (hidsread : readFirstChunkIds lines nA.toNat = .ok ids)
    (hlen : ids.length = nA.toNat) (hnd : ids.Nodup)
    (hatom : ∀ i, i < lines.length / (nA + 9).toNat → ∀ k, k < nA.toNat →
      ∃ a x, chunkLine lines (nA + 9).toNat i k = Line.atomLine a x)
    (hperm : ∀ i, i < lines.length / (nA + 9).toNat →
      ((List.range nA.toNat).map
        (fun k => lineId (chunkLine lines (nA + 9).toNat i k))).Perm ids) :
    ∃ r, processFile init lines = .ok r ∧
      r.numAtoms = nA ∧ r.dumpStep = dS ∧
      r.numDumps = (lines.length : ℚ) / (((nA + 9 : ℤ)) : ℚ) ∧
      pyIntNat r.numDumps = lines.length / (nA + 9).toNat ∧
      (∀ a2 t, a2 < nA.toNat → t < lines.length / (nA + 9).toNat →
        r.written a2 t = 1) ∧
      (∀ a2 t, lines.length / (nA + 9).toNat ≤ t → r.written a2 t = 0) := by
  have hfloor : pyIntNat ((lines.length : ℚ) / (((nA + 9 : ℤ)) : ℚ))
      = lines.length / (nA + 9).toNat := pyIntNat_div lines.length (nA + 9) (by omega)
  obtain ⟨s2, hok, h1, h0, -⟩ := assemble_spec lines (nA + 9).toNat nA.toNat
    (lines.length / (nA + 9).toNat) ids init hlen hnd hatom hperm
  have hpf : processFile init lines = .ok
      { data := s2.data, written := s2.written, numAtoms := nA,
        numDumps := (lines.length : ℚ) / (((nA + 9 : ℤ)) : ℚ), dumpStep := dS } := by
    unfold processFile
    rw [if_neg (by omega), h3]
    simp only [pyIntLine]
    rw [if_neg (by omega), hds]
    simp only [pyIntLine]
    rw [hidsread, hfloor]
    simp only [hok]
  refine ⟨_, hpf, rfl, rfl, rfl, ?_, ?_, ?_⟩
  · exact hfloor
  · intro a2 t ha2 ht
    exact h1 a2 t ha2 ht
  · intro a2 t ht
    exact (h0 a2 t (Or.inr ht)).1

/-- Witness for C6: the 25-line file decodes to numAtoms 1 and dumpStep 200
and processes exactly `⌊2.5⌋ = 2` chunks, with no error despite the
truncated remainder. -/
theorem decoder_reads_header_and_floors_chunks_witness :
    (match processFile (fun _ _ => 0) exF with
      | .ok r => some (r.numAtoms, r.dumpStep, pyIntNat r.numDumps)
      | _ => none)
      = some (1, 200, 2) := by
  obtain ⟨r, hpf, hA, hS, -, hF, -, -⟩ :=
    decoder_reads_header_and_floors_chunks (fun _ _ => 0) exF 1 200 [7]
      (by decide) rfl (by decide) rfl rfl rfl (by decide)
      (by
        intro i hi k hk
        have hi2 : i < 2 := hi
        have hk2 : k < 1 := hk
        interval_cases i <;> interval_cases k
        · exact ⟨7, 3, rfl⟩
        · exact ⟨7, 4, rfl⟩)
      (by
        intro i hi
        have hi2 : i < 2 := hi
        interval_cases i
        · decide
        · decide)
  rw [hpf]
  show some (r.numAtoms, r.dumpStep, pyIntNat r.numDumps) = some (1, 200, 2)
  rw [hA, hS, hF]
  rfl

end TRAJEP
